import Mathlib

/-
Verification of the agent-registry logic of iotinator
(src/iotinator/AgentCollection.cpp): shallow embedding of
AgentCollection::add / refresh / list / ping / renameOne / nameAlreadyExists
and proofs of the specified properties.
-/

set_option autoImplicit false

namespace Iotinator

/-- Modelled from the spec: the header AgentCollection.h (not under src/) defines
NAME_MAX_LENGTH, the bound on agent display names ("bounded length", spec sect. 3).
The exact value is not in the sources; a representative value is fixed here. -/
def NAME_MAX_LENGTH : Nat := 20

/-- Modelled from the spec: fixed base size of the list buffer (header constant). -/
def LIST_BUFFER_SIZE : Nat := 100

/-- Modelled from the spec: maximal length of a textual mac address (header constant). -/
def MAC_ADDR_MAX_LENGTH : Nat := 18

/-- Modelled from the spec: maximal length of the serialized ip field (header constant). -/
def DOUBLE_IP_MAX_LENGTH : Nat := 32

/-- Modelled from the spec: maximal length of the uiClassName field (header constant). -/
def UI_CLASS_NAME_MAX_LENGTH : Nat := 20

namespace XIOTModuleJsonTag

/-- Modelled from the spec: the JSON attribute tag strings of XIOTModuleJsonTag
(declared in a header not under src/); only their lengths enter the size arithmetic. -/
def name : String := "name"

def MAC : String := "mac"

def ip : String := "ip"

def canSleep : String := "canSleep"

def pong : String := "pong"

def uiClassName : String := "uiClassName"

def heap : String := "heap"

def custom : String := "custom"

def pingPeriod : String := "pingPeriod"

end XIOTModuleJsonTag

/-- One registered agent module. Mirrors the Agent record described in spec sect. 3;
the Agent class itself is declared outside src/. Fields whose C type is a nullable
char pointer (custom, uiClassName) are Options. -/
structure Agent where
  name : String
  mac : String
  ip : String
  canSleep : Bool
  custom : Option String
  uiClassName : Option String
  heap : Int
  pingPeriod : Int
  pong : Bool
  toRename : Bool
  deriving Repr, DecidableEq

/-- Modelled from the spec: the constructor Agent(name, mac, module) (Agent class not
under src/) creates a fresh record for the given name and mac; all the other
attributes start at their defaults and are overwritten by add right after creation. -/
def newAgent (name mac : String) : Agent :=
  { name := name, mac := mac, ip := "", canSleep := false, custom := none,
    uiClassName := none, heap := 0, pingPeriod := 0, pong := false, toRename := false }

/-- Modelled from the spec: Agent::renameTo (sect. 4.1) sets the name and clears the
pending-rename flag. -/
def renameTo (a : Agent) (newName : String) : Agent :=
  { a with name := newName, toRename := false }

/-- A decoded registration / refresh payload: the fields AgentCollection reads from
the parsed JSON object. A field absent from the JSON document is none (the C cast
of an absent member yields NULL / false / 0 at the use site, modelled at the use
sites below). -/
structure Payload where
  name : Option String
  mac : Option String
  ip : Option String
  canSleep : Option Bool
  custom : Option String
  uiClassName : Option String
  heap : Option Int
  pingPeriod : Option Int
  deriving Repr

/-- The agent map of the collection, kept in strictly increasing mac order —
the embedding of the std::map (ordered, unique keys) _agents member. -/
def agentMap := List Agent

/-- The registry: the agent map plus the cached list buffer size
(member _listBufferSize, recomputed by add). -/
structure AgentCollection where
  _agents : List Agent
  _listBufferSize : Nat
  deriving Repr, DecidableEq

/-- AgentCollection::getCount: number of registered agents. -/
def getCount (st : AgentCollection) : Nat :=
  st._agents.length

/-- Lookup by mac (std::map::find on _agents). -/
def findAgent : List Agent → String → Option Agent
  | [], _ => none
  | b :: rest, m => if b.mac = m then some b else findAgent rest m

/-- Lexicographic character-list comparison: the order std::less of std::string
imposes on the map keys. -/
def charListLt : List Char → List Char → Bool
  | [], [] => false
  | [], _ :: _ => true
  | _ :: _, [] => false
  | c :: cs, d :: ds =>
    if c.toNat < d.toNat then true
    else if d.toNat < c.toNat then false
    else charListLt cs ds

/-- The strict key order of the agent map. -/
def macLt (a b : String) : Bool :=
  charListLt a.data b.data

/-- Ordered-map insertion (std::map::insert): inserts the agent at its key position
when the mac is absent; when the mac is present the map is unchanged. Returns the
new map, the agent the returned iterator points at (the freshly inserted one, or
the already registered one), and the inserted flag (pair.second). -/
def mapInsert : List Agent → Agent → List Agent × Agent × Bool
  | [], a => ([a], a, true)
  | b :: rest, a =>
    if macLt a.mac b.mac then (a :: b :: rest, a, true)
    else if a.mac = b.mac then (b :: rest, b, false)
    else
      let r := mapInsert rest a
      (b :: r.1, r.2.1, r.2.2)

/-- Replace the entry with the given mac by the given agent: the embedding of a
mutation performed through the pointer stored in the map. -/
def updateAt : List Agent → String → Agent → List Agent
  | [], _, _ => []
  | b :: rest, m, a => if b.mac = m then a :: rest else b :: updateAt rest m a

/-- AgentCollection::nameAlreadyExists (lines 240-248): true iff some agent in the
map has the given name on a mac different from the given one. -/
def nameAlreadyExists (agents : List Agent) (name mac : String) : Bool :=
  match agents with
  | [] => false
  | a :: rest =>
    if a.name = name ∧ a.mac ≠ mac then true
    else nameAlreadyExists rest name mac

/-- AgentCollection::_jsonAttributeSize (lines 99-102): per-attribute buffer
contribution — value size + attribute name length + 2 quotes + colon + comma,
once per registered module. -/
def _jsonAttributeSize (moduleCount : Nat) (attrName : String) (valueSize : Nat) : Nat :=
  moduleCount * (valueSize + attrName.length + 2 + 1 + 1)

/-- AgentCollection::_refreshListBufferSize (lines 107-117), as the value stored
into _listBufferSize for the given module count. -/
def _refreshListBufferSize (moduleCount : Nat) : Nat :=
  LIST_BUFFER_SIZE
  + _jsonAttributeSize moduleCount XIOTModuleJsonTag.MAC MAC_ADDR_MAX_LENGTH
  + _jsonAttributeSize moduleCount XIOTModuleJsonTag.name NAME_MAX_LENGTH
  + _jsonAttributeSize moduleCount XIOTModuleJsonTag.ip DOUBLE_IP_MAX_LENGTH
  + _jsonAttributeSize moduleCount XIOTModuleJsonTag.canSleep 5
  + _jsonAttributeSize moduleCount XIOTModuleJsonTag.pong 5
  + _jsonAttributeSize moduleCount XIOTModuleJsonTag.uiClassName UI_CLASS_NAME_MAX_LENGTH
  + _jsonAttributeSize moduleCount XIOTModuleJsonTag.heap 4

/-- The agent record after add has overwritten the payload-controlled attributes
(lines 78-86): canSleep, custom, uiClassName, heap, pingPeriod, ip, name; all the
other attributes (mac, pong, toRename) keep their values. A field absent from the
payload is overwritten with the value its C cast yields at the use site:
(bool) of an absent member is false, (int) and (int32_t) are 0, (const char star)
is NULL. -/
def addUpdate (b : Agent) (root : Payload) (name ip : String) : Agent :=
  { b with
    canSleep := root.canSleep.getD false
    custom := root.custom
    uiClassName := root.uiClassName
    heap := root.heap.getD 0
    pingPeriod := root.pingPeriod.getD 0
    ip := ip
    name := name }

/-- The agent record add leaves in the map and returns, starting from the record
the insert step produced (the fresh agent or the already registered one): the
attribute overwrites of lines 78-86 followed by the conflict flagging of
lines 88-91, the name-uniqueness check running on the given map. -/
def addResult (agents : List Agent) (b : Agent) (root : Payload)
    (name mac ip : String) : Agent :=
  let a1 := addUpdate b root name ip
  if nameAlreadyExists agents name mac then { a1 with toRename := true } else a1

/-- AgentCollection::add (lines 51-94). The input is none when jsonBuffer.parseObject
fails (root.success() false); otherwise the decoded payload. Returns the agent
pointer returned by the C function (none for NULL) and the collection state after
the call. Field defaults at the cast sites: (bool) of an absent member is false,
(int) and (int32_t) of an absent member are 0, (const char star) is NULL. -/
def add (st : AgentCollection) (input : Option Payload) : Option Agent × AgentCollection :=
  match input with
  | none => (none, st)
  | some root =>
    match root.name, root.mac, root.ip with
    | some name, some mac, some ip =>
      let ins := mapInsert st._agents (newAgent name mac)
      let agent1 := addUpdate ins.2.1 root name ip
      let agentsA := updateAt ins.1 mac agent1
      let agent2 := addResult agentsA ins.2.1 root name mac ip
      let agentsB := updateAt agentsA mac agent2
      (some agent2, { _agents := agentsB, _listBufferSize := _refreshListBufferSize agentsB.length })
    | _, _, _ => (none, st)

/-- AgentCollection::refresh (lines 18-45). Same input convention as add. On success
only the custom field of the found agent is overwritten (the C call
setCustom(root[custom]) stores the possibly-NULL pointer value). -/
def refresh (st : AgentCollection) (input : Option Payload) : Option Agent × AgentCollection :=
  match input with
  | none => (none, st)
  | some root =>
    match root.mac with
    | none => (none, st)
    | some mac =>
      match findAgent st._agents mac with
      | none => (none, st)
      | some agent =>
        let agent1 := { agent with custom := root.custom }
        (some agent1, { st with _agents := updateAt st._agents mac agent1 })

/-- One entry of the composite produced by AgentCollection::list (lines 134-148):
the attributes written into the nested object for one agent. The custom member is
only written when the agent has one (lines 142-146). -/
structure ListEntry where
  name : String
  ip : String
  canSleep : Bool
  pong : Bool
  uiClassName : Option String
  heap : Int
  custom : Option String
  deriving Repr, DecidableEq

/-- The nested object created for one agent in the list loop (lines 135-146). -/
def listEntryOf (a : Agent) : ListEntry :=
  { name := a.name, ip := a.ip, canSleep := a.canSleep, pong := a.pong,
    uiClassName := a.uiClassName, heap := a.heap, custom := a.custom }

/-- AgentCollection::list (lines 119-156), as the composite it serializes: the empty
composite for an empty map (line 122-124), otherwise one nested object per agent
keyed by its mac, in map iteration order. -/
def list (st : AgentCollection) : List (String × ListEntry) :=
  if getCount st = 0 then []
  else st._agents.map (fun a => (a.mac, listEntryOf a))

/-- The customSize accumulator of the list loop (lines 132, 142-146): overwritten
with strlen(custom) at every agent that has a custom value, so after the loop it
holds the custom length of the last such agent in iteration order (0 if none). -/
def listCustomSize (agents : List Agent) : Nat :=
  agents.foldl
    (fun cs a => match a.custom with | some c => c.length | none => cs) 0

/-- The output buffer capacity list() provisions (line 151):
strBufferSize = _listBufferSize + customSize. -/
def listProvisionedSize (st : AgentCollection) : Nat :=
  st._listBufferSize + listCustomSize st._agents

/-- Following the spec words for claim C9: "the actual size of the
largest-observed custom payload" — the maximum custom length over the registry.
This is the specification-side quantity, to be compared with listCustomSize. -/
def largestCustomSize (agents : List Agent) : Nat :=
  agents.foldl
    (fun m a => max m (match a.custom with | some c => c.length | none => 0)) 0

/-- AgentCollection::ping (lines 175-202), as the list of agents on which
Agent::ping is invoked. Mirrors line 186, where getPingPeriod() is cast to bool
before being stored in the int variable pingPeriod (nonzero becomes 1), and
line 187, the condition (!canSleep && pingPeriod > 0). -/
def pingInvoked (st : AgentCollection) : List Agent :=
  st._agents.filter (fun a =>
    let canSleep : Bool := a.canSleep
    let pingPeriod : Int := if a.pingPeriod ≠ 0 then 1 else 0
    (!canSleep) && decide (pingPeriod > 0))

/-- The C atoi digit scan: accumulate consecutive decimal digits, stop at the
first non-digit. -/
def atoiNat : List Char → Nat → Nat
  | [], acc => acc
  | c :: cs, acc =>
    if c.isDigit then atoiNat cs (10 * acc + (c.toNat - 48)) else acc

/-- The C atoi: skip leading whitespace (isspace), read an optional sign, then
decimal digits up to the first non-digit (0 if none); values are unbounded here
where the C int would overflow. -/
def atoi (s : String) : Int :=
  let cs := s.data.dropWhile (fun c =>
    c = ' ' ∨ c = '\t' ∨ c = '\n' ∨ c = '\r' ∨ c = '\x0b' ∨ c = '\x0c')
  match cs with
  | '-' :: rest => -(atoiNat rest 0 : Int)
  | '+' :: rest => (atoiNat rest 0 : Int)
  | _ => (atoiNat cs 0 : Int)

/-- The alpha buffer after the two strtok calls of renameOne (lines 213-220):
strtok writes a NUL at the end of the first maximal run of non-underscore
characters, so alpha, read as a C string, is the original name up to and
including that run (leading underscores are not erased); when the name holds no
such run, strtok returns NULL and alpha is left unmodified. -/
def strtokBase (s : String) : String :=
  let lead := s.data.takeWhile (fun c => c = '_')
  let tok := (s.data.dropWhile (fun c => c = '_')).takeWhile (fun c => c ≠ '_')
  if tok = [] then s else String.mk (lead ++ tok)

/-- The digit value of renameOne (lines 207, 214-219): atoi of the second strtok
token (the run of non-underscore characters after the first one), 0 when there is
no such token. -/
def strtokDigit (s : String) : Int :=
  let afterFirst :=
    ((s.data.dropWhile (fun c => c = '_')).dropWhile (fun c => c ≠ '_')).dropWhile
      (fun c => c = '_')
  let tok2 := afterFirst.takeWhile (fun c => c ≠ '_')
  if tok2 = [] then 0 else atoi (String.mk tok2)

/-- The candidate name sprintf(newName, "%s_%d", alpha, digit) builds (line 223). -/
def candidateName (base : String) (digit : Int) : String :=
  base ++ "_" ++ toString digit

/-- The while loop of renameOne (lines 222-228): while the previously built
candidate is shorter than NAME_MAX_LENGTH, build the next candidate (digit is
pre-incremented) and accept it unless nameAlreadyExists holds for it. The newName
buffer is uninitialized at the first length test; it is modelled as the empty
string, so the first candidate is always built (NAME_MAX_LENGTH is positive).
The fuel argument only bounds the recursion: consecutive rejected candidates are
pairwise distinct strings, each equal to some registered agent name, so at most
getCount of them can occur and a fuel exceeding getCount + 1 is never exhausted —
theorem renameLoop_fuel_irrelevant below proves the result is the same for every
fuel beyond that bound, so this computes the limit semantics of the C loop. -/
def renameLoop (agents : List Agent) (mac base : String) :
    Nat → Int → String → Option String
  | 0, _, _ => none
  | fuel + 1, digit, prev =>
    if prev.length < NAME_MAX_LENGTH then
      let cand := candidateName base (digit + 1)
      if nameAlreadyExists agents cand mac then
        renameLoop agents mac base fuel (digit + 1) cand
      else some cand
    else none

/-- AgentCollection::renameOne (lines 205-235), returning the agent as left by the
call: on a successful search the agent is renamed to the found candidate via
Agent::renameTo, which also clears the pending-rename flag; on exhaustion the
agent is left untouched (only a message is printed). -/
def renameOne (st : AgentCollection) (agent : Agent) : Agent :=
  let base := strtokBase agent.name
  let digit := strtokDigit agent.name
  match renameLoop st._agents agent.mac base (getCount st + 2) digit "" with
  | some newName => renameTo agent newName
  | none => agent

/-- Following the spec words for claim C4: "split the current name on its last
_-delimited numeric suffix, if any (Lamp_3 to base Lamp and suffix 3; Lamp to
base Lamp and suffix 0)": when the name has an underscore and the part after the
last underscore is a nonempty run of digits, the base is everything before that
underscore and the suffix is its value; otherwise the base is the whole name and
the suffix is 0. Specification-side definition, to be compared with the
strtok-based split of the source. -/
def splitBaseDigitSpec (s : String) : String × Int :=
  let cs := s.data
  let tailRev := cs.reverse.takeWhile (fun c => c ≠ '_')
  if tailRev.length = cs.length then (s, 0)
  else
    let tail := tailRev.reverse
    if tail ≠ [] ∧ tail.all (fun c => c.isDigit) then
      (String.mk (cs.take (cs.length - tailRev.length - 1)), atoi (String.mk tail))
    else (s, 0)

/-- The rename operation as the spec describes it in claim C4: identical candidate
search, but seeded with the last-numeric-suffix split instead of the strtok
split. Specification-side definition, to be compared with renameOne. -/
def renameOneSpec (st : AgentCollection) (agent : Agent) : Agent :=
  let sp := splitBaseDigitSpec agent.name
  match renameLoop st._agents agent.mac sp.1 (getCount st + 2) sp.2 "" with
  | some newName => renameTo agent newName
  | none => agent

/-- The registry invariant: the agent map is in strictly increasing mac order
(the std::map key order); macs are therefore pairwise distinct. -/
def MacSorted (agents : List Agent) : Prop :=
  agents.Pairwise (fun a b => macLt a.mac b.mac = true)

instance (agents : List Agent) : Decidable (MacSorted agents) := by
  unfold MacSorted
  infer_instance

/-- The custom length of the last agent in iteration order that has a custom
value (0 when none has one) — the declarative description of what the customSize
accumulator holds after the list loop. -/
def lastCustomSize (agents : List Agent) : Nat :=
  (Option.map String.length (agents.filterMap Agent.custom).getLast?).getD 0

/-- The collection as constructed by AgentCollection::AgentCollection: no agents;
the cached buffer size starts uninitialized at its value for zero modules. -/
def emptyCollection : AgentCollection :=
  { _agents := [], _listBufferSize := _refreshListBufferSize 0 }

/-- A registration payload carrying exactly the three required fields. -/
def mkPayload (n m i : String) : Payload :=
  { name := some n, mac := some m, ip := some i, canSleep := none, custom := none,
    uiClassName := none, heap := none, pingPeriod := none }

/-- A registration payload carrying the three required fields and a custom blob. -/
def mkPayloadCustom (n m i c : String) : Payload :=
  { name := some n, mac := some m, ip := some i, canSleep := none, custom := some c,
    uiClassName := none, heap := none, pingPeriod := none }

/-- A payload with no fields at all (decodes, but every key is absent). -/
def payNoMac : Payload :=
  { name := none, mac := none, ip := none, canSleep := none, custom := none,
    uiClassName := none, heap := none, pingPeriod := none }

/-- A refresh payload: mac plus a custom blob. -/
def payRefreshBB : Payload :=
  { name := none, mac := some "BB:BB", ip := none, canSleep := none,
    custom := some "hello", uiClassName := none, heap := none, pingPeriod := none }

/-- A re-registration of the BB:BB agent under a fresh, non-conflicting name. -/
def payOtherBB : Payload :=
  mkPayload "Other" "BB:BB" "10.0.0.9"

/-- Registry after registering (Lamp, AA:AA, 10.0.0.1) on the empty collection. -/
def stA : AgentCollection :=
  (add emptyCollection (some (mkPayload "Lamp" "AA:AA" "10.0.0.1"))).2

/-- Registry after additionally registering (Lamp, BB:BB, 10.0.0.2): the BB:BB
agent carries a conflicting name and is flagged for rename. -/
def stAB : AgentCollection :=
  (add stA (some (mkPayload "Lamp" "BB:BB" "10.0.0.2"))).2

/-- The BB:BB agent as registered in stAB (name conflict flagged). -/
def agentBB : Agent :=
  { name := "Lamp", mac := "BB:BB", ip := "10.0.0.2", canSleep := false,
    custom := none, uiClassName := none, heap := 0, pingPeriod := 0,
    pong := false, toRename := true }

/-- stAB after the rename pass has run on the BB:BB agent (the mutation through
the map pointer that renameOne performs). -/
def stABrenamed : AgentCollection :=
  { stAB with _agents := updateAt stAB._agents "BB:BB" (renameOne stAB agentBB) }

/-- Registry after additionally registering (Lamp, CC:CC, 10.0.0.3) once BB:BB
has been renamed: the CC:CC agent conflicts with AA:AA and is flagged. -/
def stABC : AgentCollection :=
  (add stABrenamed (some (mkPayload "Lamp" "CC:CC" "10.0.0.3"))).2

/-- The CC:CC agent as registered in stABC (name conflict flagged). -/
def agentCC : Agent :=
  { name := "Lamp", mac := "CC:CC", ip := "10.0.0.3", canSleep := false,
    custom := none, uiClassName := none, heap := 0, pingPeriod := 0,
    pong := false, toRename := true }

/-- Registry holding two agents named My_Lamp, the second flagged for rename:
the input separating the first-underscore split the code performs from the
last-numeric-suffix split the spec describes. -/
def stMy : AgentCollection :=
  (add (add emptyCollection (some (mkPayload "My_Lamp" "AA:AA" "10.0.0.1"))).2
    (some (mkPayload "My_Lamp" "BB:BB" "10.0.0.2"))).2

/-- The flagged My_Lamp agent of stMy. -/
def agentMyBB : Agent :=
  { name := "My_Lamp", mac := "BB:BB", ip := "10.0.0.2", canSleep := false,
    custom := none, uiClassName := none, heap := 0, pingPeriod := 0,
    pong := false, toRename := true }

/-- An agent whose name is one character below the length bound with the suffix
already taken: every further candidate reaches the bound. -/
def agentLongOwner : Agent :=
  newAgent "AAAAAAAAAAAAAAAAAA_1" "AA:AA"

/-- The flagged agent whose rename search is exhausted by the length bound. -/
def agentLongDup : Agent :=
  { newAgent "AAAAAAAAAAAAAAAAAA" "BB:BB" with toRename := true }

/-- Registry on which the rename search for agentLongDup is exhausted. -/
def stLong : AgentCollection :=
  { _agents := [agentLongOwner, agentLongDup], _listBufferSize := 0 }

/-- Registry built by two registrations with custom blobs of lengths 7 and 1:
the iteration-order-last custom (length 1) differs from the largest (length 7). -/
def stCust : AgentCollection :=
  (add (add emptyCollection (some (mkPayloadCustom "A" "AA:AA" "10.0.0.1" "XXXXXXX"))).2
    (some (mkPayloadCustom "B" "AB:AB" "10.0.0.2" "Y"))).2

/-- An awake agent with a negative ping period. -/
def agentNegPing : Agent :=
  { newAgent "N" "CC:CC" with pingPeriod := -1 }

/-- Registry holding only agentNegPing. -/
def stNegPing : AgentCollection :=
  { _agents := [agentNegPing], _listBufferSize := 0 }

theorem findAgent_some {l : List Agent} {m : String} {b : Agent}
    (h : findAgent l m = some b) : b ∈ l ∧ b.mac = m := by
  induction l with
  | nil => simp [findAgent] at h
  | cons x rest ih =>
    by_cases hx : x.mac = m
    · simp [findAgent, hx] at h
      subst h
      exact ⟨List.mem_cons_self x rest, hx⟩
    · simp [findAgent, hx] at h
      rcases ih h with ⟨hmem, hmac⟩
      exact ⟨List.mem_cons_of_mem x hmem, hmac⟩

theorem findAgent_eq_none {l : List Agent} {m : String} :
    findAgent l m = none ↔ ∀ a ∈ l, a.mac ≠ m := by
  induction l with
  | nil => simp [findAgent]
  | cons x rest ih =>
    by_cases hx : x.mac = m
    · rw [findAgent, if_pos hx]
      simp only [List.mem_cons]
      constructor
      · intro h
        exact absurd h (by simp)
      · intro h
        exact absurd hx (h x (Or.inl rfl))
    · rw [findAgent, if_neg hx, ih]
      simp only [List.mem_cons]
      constructor
      · rintro h a (rfl | ha)
        · exact hx
        · exact h a ha
      · intro h a ha
        exact h a (Or.inr ha)

theorem nameAlreadyExists_iff (l : List Agent) (n m : String) :
    nameAlreadyExists l n m = true ↔ ∃ a ∈ l, a.name = n ∧ a.mac ≠ m := by
  induction l with
  | nil => simp [nameAlreadyExists]
  | cons x rest ih =>
    by_cases hx : x.name = n ∧ x.mac ≠ m
    · rw [nameAlreadyExists, if_pos hx]
      simp only [true_iff]
      exact ⟨x, List.mem_cons_self x rest, hx⟩
    · rw [nameAlreadyExists, if_neg hx, ih]
      constructor
      · rintro ⟨a, ha, hprop⟩
        exact ⟨a, List.mem_cons_of_mem x ha, hprop⟩
      · rintro ⟨a, ha, hprop⟩
        rcases List.mem_cons.mp ha with rfl | ha
        · exact absurd hprop hx
        · exact ⟨a, ha, hprop⟩

theorem updateAt_length (l : List Agent) (m : String) (a : Agent) :
    (updateAt l m a).length = l.length := by
  induction l with
  | nil => rfl
  | cons x rest ih =>
    by_cases hx : x.mac = m
    · simp [updateAt, hx]
    · simp [updateAt, hx, ih]

theorem updateAt_of_not_found {l : List Agent} {m : String} (a : Agent)
    (h : findAgent l m = none) : updateAt l m a = l := by
  induction l with
  | nil => rfl
  | cons x rest ih =>
    by_cases hx : x.mac = m
    · simp [findAgent, hx] at h
    · simp only [findAgent, if_neg hx] at h
      simp [updateAt, hx, ih h]

theorem findAgent_updateAt_self {l : List Agent} {m : String} {b : Agent}
    (a : Agent) (hb : findAgent l m = some b) (ha : a.mac = m) :
    findAgent (updateAt l m a) m = some a := by
  induction l with
  | nil => simp [findAgent] at hb
  | cons x rest ih =>
    by_cases hx : x.mac = m
    · simp [updateAt, hx, findAgent, ha]
    · simp only [findAgent, if_neg hx] at hb
      simp [updateAt, hx, findAgent, ih hb]

theorem findAgent_updateAt_other {l : List Agent} {m : String}
    (a : Agent) (ha : a.mac = m) (m' : String) (hne : m' ≠ m) :
    findAgent (updateAt l m a) m' = findAgent l m' := by
  induction l with
  | nil => rfl
  | cons x rest ih =>
    by_cases hx : x.mac = m
    · have hxm : ¬ x.mac = m' := by
        rw [hx]
        exact fun h => hne h.symm
      have ham : ¬ a.mac = m' := by
        rw [ha]
        exact fun h => hne h.symm
      rw [updateAt, if_pos hx, findAgent, if_neg ham, findAgent, if_neg hxm]
    · rw [updateAt, if_neg hx]
      by_cases hx' : x.mac = m'
      · rw [findAgent, if_pos hx', findAgent, if_pos hx']
      · rw [findAgent, if_neg hx', findAgent, if_neg hx', ih]

theorem updateAt_updateAt (l : List Agent) (m : String) (a1 a2 : Agent)
    (h1 : a1.mac = m) :
    updateAt (updateAt l m a1) m a2 = updateAt l m a2 := by
  induction l with
  | nil => rfl
  | cons x rest ih =>
    by_cases hx : x.mac = m
    · simp [updateAt, hx, h1]
    · simp [updateAt, hx, ih]

theorem updateAt_map_mac (l : List Agent) (m : String) (a : Agent)
    (ha : a.mac = m) :
    (updateAt l m a).map Agent.mac = l.map Agent.mac := by
  induction l with
  | nil => rfl
  | cons x rest ih =>
    by_cases hx : x.mac = m
    · simp [updateAt, hx, ha]
    · simp [updateAt, hx, ih]

theorem charListLt_irrefl : ∀ l : List Char, charListLt l l = false
  | [] => rfl
  | c :: cs => by
    rw [charListLt, if_neg (lt_irrefl c.toNat), if_neg (lt_irrefl c.toNat)]
    exact charListLt_irrefl cs

theorem charListLt_trans :
    ∀ {l1 l2 l3 : List Char}, charListLt l1 l2 = true → charListLt l2 l3 = true →
      charListLt l1 l3 = true
  | [], [], _, h1, _ => by cases h1
  | [], _ :: _, [], _, h2 => by cases h2
  | [], _ :: _, _ :: _, _, _ => rfl
  | _ :: _, [], _, h1, _ => by cases h1
  | _ :: _, _ :: _, [], _, h2 => by cases h2
  | a :: l1, b :: l2, c :: l3, h1, h2 => by
    rw [charListLt] at h1 h2 ⊢
    by_cases hab : a.toNat < b.toNat
    · by_cases hbc : b.toNat < c.toNat
      · rw [if_pos (by omega : a.toNat < c.toNat)]
      · rw [if_neg hbc] at h2
        by_cases hcb : c.toNat < b.toNat
        · rw [if_pos hcb] at h2
          cases h2
        · rw [if_pos (by omega : a.toNat < c.toNat)]
    · rw [if_neg hab] at h1
      by_cases hba : b.toNat < a.toNat
      · rw [if_pos hba] at h1
        cases h1
      · rw [if_neg hba] at h1
        by_cases hbc : b.toNat < c.toNat
        · rw [if_pos (by omega : a.toNat < c.toNat)]
        · rw [if_neg hbc] at h2
          by_cases hcb : c.toNat < b.toNat
          · rw [if_pos hcb] at h2
            cases h2
          · rw [if_neg hcb] at h2
            rw [if_neg (by omega : ¬ a.toNat < c.toNat),
                if_neg (by omega : ¬ c.toNat < a.toNat)]
            exact charListLt_trans h1 h2

theorem charListLt_eq_of_not :
    ∀ {l1 l2 : List Char}, charListLt l1 l2 = false → charListLt l2 l1 = false →
      l1 = l2
  | [], [], _, _ => rfl
  | [], _ :: _, h1, _ => by cases h1
  | _ :: _, [], _, h2 => by cases h2
  | a :: l1, b :: l2, h1, h2 => by
    rw [charListLt] at h1 h2
    by_cases hab : a.toNat < b.toNat
    · rw [if_pos hab] at h1
      cases h1
    · by_cases hba : b.toNat < a.toNat
      · rw [if_pos hba] at h2
        cases h2
      · rw [if_neg hab, if_neg hba] at h1
        rw [if_neg hba, if_neg hab] at h2
        have ht : a.toNat = b.toNat := by omega
        have hc : a = b := Char.eq_of_val_eq (UInt32.ext ht)
        rw [hc, charListLt_eq_of_not h1 h2]

theorem charListLt_asymm {l1 l2 : List Char} (h : charListLt l1 l2 = true) :
    charListLt l2 l1 = false := by
  cases hval : charListLt l2 l1 with
  | false => rfl
  | true => exact absurd (charListLt_trans h hval) (by rw [charListLt_irrefl]; exact Bool.false_ne_true)

theorem macLt_irrefl (a : String) : macLt a a = false :=
  charListLt_irrefl a.data

theorem macLt_asymm {a b : String} (h : macLt a b = true) : macLt b a = false :=
  charListLt_asymm h

theorem macLt_trans {a b c : String} (h1 : macLt a b = true)
    (h2 : macLt b c = true) : macLt a c = true :=
  charListLt_trans h1 h2

theorem macLt_eq_of_not {a b : String} (h1 : macLt a b = false)
    (h2 : macLt b a = false) : a = b := by
  have hd : a.data = b.data := charListLt_eq_of_not h1 h2
  cases a
  cases b
  exact congrArg String.mk hd

theorem bool_ne_true {b : Bool} (h : b = false) : ¬ b = true := by
  rw [h]
  exact Bool.false_ne_true

theorem mapInsert_existing {l : List Agent} {b : Agent} (a : Agent)
    (hs : MacSorted l) (hb : findAgent l a.mac = some b) :
    mapInsert l a = (l, b, false) := by
  induction l with
  | nil => simp [findAgent] at hb
  | cons x rest ih =>
    rcases List.pairwise_cons.mp hs with ⟨hx1, hx2⟩
    by_cases hx : x.mac = a.mac
    · rw [findAgent, if_pos hx] at hb
      injection hb with hb
      subst hb
      have hlt : ¬ macLt a.mac x.mac = true := by
        refine bool_ne_true ?_
        rw [hx]
        exact macLt_irrefl a.mac
      rw [mapInsert, if_neg hlt, if_pos hx.symm]
    · rw [findAgent, if_neg hx] at hb
      rcases findAgent_some hb with ⟨hmem, hmac⟩
      have hxb : macLt x.mac b.mac = true := hx1 b hmem
      have hlt : ¬ macLt a.mac x.mac = true := by
        rw [← hmac]
        exact bool_ne_true (macLt_asymm hxb)
      have heq : ¬ a.mac = x.mac := by
        rw [← hmac]
        intro h
        rw [h] at hxb
        exact absurd hxb (bool_ne_true (macLt_irrefl x.mac))
      rw [mapInsert, if_neg hlt, if_neg heq, ih hx2 hb]

theorem mapInsert_fresh {l : List Agent} (a : Agent)
    (hs : MacSorted l) (hnone : findAgent l a.mac = none) :
    (∀ y ∈ (mapInsert l a).1, y ∈ l ∨ y = a) ∧
    (mapInsert l a).2.1 = a ∧
    (mapInsert l a).2.2 = true ∧
    (mapInsert l a).1.length = l.length + 1 ∧
    MacSorted (mapInsert l a).1 ∧
    findAgent (mapInsert l a).1 a.mac = some a ∧
    (∀ m, m ≠ a.mac → findAgent (mapInsert l a).1 m = findAgent l m) := by
  induction l with
  | nil =>
    refine ⟨by simp [mapInsert], rfl, rfl, rfl, ?_, ?_, ?_⟩
    · exact List.pairwise_singleton _ a
    · rw [mapInsert]
      show findAgent [a] a.mac = some a
      rw [findAgent, if_pos rfl]
    · intro m hm
      rw [mapInsert]
      show (if a.mac = m then some a else none) = none
      rw [if_neg (show ¬ a.mac = m from fun h => hm h.symm)]
  | cons x rest ih =>
    rcases List.pairwise_cons.mp hs with ⟨hx1, hx2⟩
    have hxa : ¬ x.mac = a.mac := by
      intro h
      rw [findAgent, if_pos h] at hnone
      exact Option.noConfusion hnone
    have hrest : findAgent rest a.mac = none := by
      rw [findAgent, if_neg hxa] at hnone
      exact hnone
    by_cases hlt : macLt a.mac x.mac = true
    · rw [mapInsert, if_pos hlt]
      refine ⟨?_, rfl, rfl, rfl, ?_, ?_, ?_⟩
      · intro y hy
        rcases List.mem_cons.mp hy with rfl | hy
        · exact Or.inr rfl
        · exact Or.inl hy
      · refine List.pairwise_cons.mpr ⟨?_, hs⟩
        intro y hy
        rcases List.mem_cons.mp hy with rfl | hy
        · exact hlt
        · exact macLt_trans hlt (hx1 y hy)
      · show findAgent (a :: x :: rest) a.mac = some a
        rw [findAgent, if_pos rfl]
      · intro m hm
        show findAgent (a :: x :: rest) m = findAgent (x :: rest) m
        rw [findAgent, if_neg (show ¬ a.mac = m from fun h => hm h.symm)]
    · have hgt : macLt x.mac a.mac = true := by
        cases hba : macLt x.mac a.mac with
        | true => rfl
        | false =>
          exact absurd (macLt_eq_of_not hba (Bool.eq_false_iff.mpr hlt)) hxa
      rw [mapInsert, if_neg hlt, if_neg (fun h => hxa h.symm)]
      rcases ih hx2 hrest with ⟨ihmem, ih1, ih2, ihlen, ihsorted, ihfind, ihframe⟩
      refine ⟨?_, ih1, ih2, ?_, ?_, ?_, ?_⟩
      · intro y hy
        rcases List.mem_cons.mp hy with rfl | hy
        · exact Or.inl (List.mem_cons_self y rest)
        · rcases ihmem y hy with h | h
          · exact Or.inl (List.mem_cons_of_mem x h)
          · exact Or.inr h
      · show ((mapInsert rest a).1.length + 1) = (rest.length + 1) + 1
        rw [ihlen]
      · refine List.pairwise_cons.mpr ⟨?_, ihsorted⟩
        intro y hy
        rcases ihmem y hy with h | rfl
        · exact hx1 y h
        · exact hgt
      · show findAgent (x :: (mapInsert rest a).1) a.mac = some a
        rw [findAgent, if_neg hxa, ihfind]
      · intro m hm
        show findAgent (x :: (mapInsert rest a).1) m = findAgent (x :: rest) m
        by_cases hxm : x.mac = m
        · rw [findAgent, if_pos hxm, findAgent, if_pos hxm]
        · rw [findAgent, if_neg hxm, findAgent, if_neg hxm, ihframe m hm]

theorem nameAlreadyExists_updateAt (l : List Agent) (m : String) (a : Agent)
    (ha : a.mac = m) (n : String) :
    nameAlreadyExists (updateAt l m a) n m = nameAlreadyExists l n m := by
  induction l with
  | nil => rfl
  | cons x rest ih =>
    by_cases hx : x.mac = m
    · rw [updateAt, if_pos hx]
      have hna : ¬ (a.name = n ∧ a.mac ≠ m) := fun h => h.2 ha
      have hnx : ¬ (x.name = n ∧ x.mac ≠ m) := fun h => h.2 hx
      rw [nameAlreadyExists, if_neg hna, nameAlreadyExists, if_neg hnx]
    · rw [updateAt, if_neg hx]
      by_cases hcond : x.name = n ∧ x.mac ≠ m
      · rw [nameAlreadyExists, if_pos hcond, nameAlreadyExists, if_pos hcond]
      · rw [nameAlreadyExists, if_neg hcond, nameAlreadyExists, if_neg hcond, ih]

theorem macSorted_iff_map (l : List Agent) :
    MacSorted l ↔ (l.map Agent.mac).Pairwise (fun x y => macLt x y = true) := by
  unfold MacSorted
  rw [List.pairwise_map]

theorem updateAt_macSorted {l : List Agent} {m : String} {a : Agent}
    (hs : MacSorted l) (ha : a.mac = m) : MacSorted (updateAt l m a) := by
  rw [macSorted_iff_map, updateAt_map_mac l m a ha]
  exact (macSorted_iff_map l).mp hs

theorem add_existing_eq {st : AgentCollection} {p : Payload} {name mac ip : String}
    {b : Agent} (hs : MacSorted st._agents) (hn : p.name = some name)
    (hm : p.mac = some mac) (hi : p.ip = some ip)
    (hb : findAgent st._agents mac = some b) :
    add st (some p) =
      (some (addResult st._agents b p name mac ip),
       { _agents := updateAt st._agents mac (addResult st._agents b p name mac ip),
         _listBufferSize := _refreshListBufferSize st._agents.length }) := by
  have hbm : b.mac = mac := (findAgent_some hb).2
  have hins : mapInsert st._agents (newAgent name mac) = (st._agents, b, false) :=
    mapInsert_existing (newAgent name mac) hs hb
  have hcond : nameAlreadyExists (updateAt st._agents mac (addUpdate b p name ip)) name mac
      = nameAlreadyExists st._agents name mac :=
    nameAlreadyExists_updateAt st._agents mac (addUpdate b p name ip) hbm name
  have hres : addResult (updateAt st._agents mac (addUpdate b p name ip)) b p name mac ip
      = addResult st._agents b p name mac ip := by
    unfold addResult
    rw [hcond]
  simp only [add, hn, hm, hi, hins]
  rw [hres, updateAt_updateAt st._agents mac, updateAt_length]
  exact hbm

theorem addResult_mac (agents : List Agent) (b : Agent) (root : Payload)
    (name mac ip : String) : (addResult agents b root name mac ip).mac = b.mac := by
  unfold addResult addUpdate
  split <;> rfl

theorem addResult_pong (agents : List Agent) (b : Agent) (root : Payload)
    (name mac ip : String) : (addResult agents b root name mac ip).pong = b.pong := by
  unfold addResult addUpdate
  split <;> rfl

theorem addResult_name (agents : List Agent) (b : Agent) (root : Payload)
    (name mac ip : String) : (addResult agents b root name mac ip).name = name := by
  unfold addResult addUpdate
  split <;> rfl

theorem addResult_toRename (agents : List Agent) (b : Agent) (root : Payload)
    (name mac ip : String) (hno : nameAlreadyExists agents name mac = false) :
    (addResult agents b root name mac ip).toRename = b.toRename := by
  unfold addResult addUpdate
  rw [if_neg (by rw [hno]; exact Bool.false_ne_true)]

theorem add_fresh_props {st : AgentCollection} {p : Payload} {name mac ip : String}
    (hs : MacSorted st._agents) (hn : p.name = some name) (hm : p.mac = some mac)
    (hi : p.ip = some ip) (hnone : findAgent st._agents mac = none) :
    ∃ a : Agent,
      (add st (some p)).1 = some a ∧ a.mac = mac ∧
      findAgent ((add st (some p)).2)._agents mac = some a ∧
      getCount ((add st (some p)).2) = getCount st + 1 ∧
      MacSorted ((add st (some p)).2)._agents ∧
      (∀ m, m ≠ mac → findAgent ((add st (some p)).2)._agents m = findAgent st._agents m) ∧
      ((add st (some p)).2)._listBufferSize = _refreshListBufferSize (getCount st + 1) := by
  obtain ⟨hmem, h21, h22, hlen, hsorted, hfind, hframe⟩ :=
    mapInsert_fresh (newAgent name mac) hs hnone
  simp only [add, hn, hm, hi, h21]
  refine ⟨_, rfl, addResult_mac _ _ _ _ _ _, ?_, ?_, ?_, ?_, ?_⟩
  all_goals
    have hA1mac : (addUpdate (newAgent name mac) p name ip).mac = mac := rfl
    have hA2mac : (addResult
        (updateAt (mapInsert st._agents (newAgent name mac)).1 mac
          (addUpdate (newAgent name mac) p name ip))
        (newAgent name mac) p name mac ip).mac = mac :=
      addResult_mac _ _ _ _ _ _
  · rw [updateAt_updateAt _ mac _ _ hA1mac]
    exact findAgent_updateAt_self _ hfind hA2mac
  · show (updateAt (updateAt _ mac _) mac _).length = st._agents.length + 1
    rw [updateAt_length, updateAt_length]
    exact hlen
  · exact updateAt_macSorted (updateAt_macSorted hsorted hA1mac) hA2mac
  · intro m hm'
    rw [findAgent_updateAt_other _ hA2mac m hm',
        findAgent_updateAt_other _ hA1mac m hm']
    exact hframe m hm'
  · show _refreshListBufferSize (updateAt (updateAt _ mac _) mac _).length
        = _refreshListBufferSize (st._agents.length + 1)
    rw [updateAt_length, updateAt_length, hlen]

theorem add_parse_fail (st : AgentCollection) : add st none = (none, st) :=
  rfl

theorem add_missing_field (st : AgentCollection) (p : Payload)
    (h : p.name = none ∨ p.mac = none ∨ p.ip = none) :
    add st (some p) = (none, st) := by
  rcases h with h | h | h
  · cases hpm : p.mac <;> cases hpi : p.ip <;> simp [add, h, hpm, hpi]
  · cases hpn : p.name <;> cases hpi : p.ip <;> simp [add, h, hpn, hpi]
  · cases hpn : p.name <;> cases hpm : p.mac <;> simp [add, h, hpn, hpm]

theorem refresh_parse_fail (st : AgentCollection) : refresh st none = (none, st) :=
  rfl

theorem refresh_missing_mac (st : AgentCollection) (p : Payload)
    (h : p.mac = none) : refresh st (some p) = (none, st) := by
  simp [refresh, h]

theorem refresh_not_found (st : AgentCollection) (p : Payload) (mac : String)
    (hm : p.mac = some mac) (h : findAgent st._agents mac = none) :
    refresh st (some p) = (none, st) := by
  simp [refresh, hm, h]

theorem refresh_found_eq {st : AgentCollection} {p : Payload} {mac : String}
    {b : Agent} (hm : p.mac = some mac) (hb : findAgent st._agents mac = some b) :
    refresh st (some p) =
      (some { b with custom := p.custom },
       { st with _agents := updateAt st._agents mac { b with custom := p.custom } }) := by
  simp [refresh, hm, hb]

theorem renameLoop_least (agents : List Agent) (mac base : String) :
    ∀ (fuel : Nat) (d : Int) (prev nn : String),
      renameLoop agents mac base fuel d prev = some nn →
      ∃ k : Int, d < k ∧ nn = candidateName base k ∧
        nameAlreadyExists agents (candidateName base k) mac = false ∧
        ∀ j : Int, d < j → j < k →
          nameAlreadyExists agents (candidateName base j) mac = true := by
  intro fuel
  induction fuel with
  | zero =>
    intro d prev nn h
    exact Option.noConfusion h
  | succ fuel ih =>
    intro d prev nn h
    rw [renameLoop] at h
    by_cases hlen : prev.length < NAME_MAX_LENGTH
    · rw [if_pos hlen] at h
      by_cases hc : nameAlreadyExists agents (candidateName base (d + 1)) mac = true
      · rw [if_pos hc] at h
        obtain ⟨k, hk1, hk2, hk3, hk4⟩ := ih (d + 1) (candidateName base (d + 1)) nn h
        refine ⟨k, by omega, hk2, hk3, ?_⟩
        intro j hj1 hj2
        by_cases hj : j = d + 1
        · rw [hj]
          exact hc
        · exact hk4 j (by omega) hj2
      · rw [if_neg hc] at h
        injection h with h
        refine ⟨d + 1, by omega, h.symm, ?_, ?_⟩
        · exact Bool.eq_false_iff.mpr hc
        · intro j hj1 hj2
          omega
    · rw [if_neg hlen] at h
      exact Option.noConfusion h

theorem listCustomSize_acc (l : List Agent) :
    ∀ acc : Nat,
      l.foldl (fun cs a => match a.custom with | some c => c.length | none => cs) acc
      = (Option.map String.length (l.filterMap Agent.custom).getLast?).getD acc := by
  induction l with
  | nil =>
    intro acc
    rfl
  | cons a rest ih =>
    intro acc
    cases hc : a.custom with
    | none =>
      rw [List.foldl_cons]
      simp only [hc]
      rw [ih acc, List.filterMap_cons, hc]
    | some c =>
      rw [List.foldl_cons]
      simp only [hc]
      rw [ih c.length, List.filterMap_cons, hc]
      cases hxs : rest.filterMap Agent.custom with
      | nil => rfl
      | cons b xs =>
        rw [List.getLast?_cons_cons]
        cases hlast : (b :: xs).getLast? with
        | none => exact absurd (List.getLast?_eq_none_iff.mp hlast) (List.cons_ne_nil b xs)
        | some y => rfl

theorem macSorted_nodup {l : List Agent} (hs : MacSorted l) :
    (l.map Agent.mac).Nodup := by
  have hp := (macSorted_iff_map l).mp hs
  refine hp.imp ?_
  intro x y hxy
  intro heq
  rw [heq] at hxy
  exact absurd hxy (bool_ne_true (macLt_irrefl y))

theorem emptyCollection_macSorted : MacSorted emptyCollection._agents :=
  List.Pairwise.nil

theorem add_preserves_macSorted (st : AgentCollection) (input : Option Payload)
    (hs : MacSorted st._agents) : MacSorted ((add st input).2)._agents := by
  cases input with
  | none => exact hs
  | some p =>
    cases hpn : p.name with
    | none =>
      rw [add_missing_field st p (Or.inl hpn)]
      exact hs
    | some name =>
      cases hpm : p.mac with
      | none =>
        rw [add_missing_field st p (Or.inr (Or.inl hpm))]
        exact hs
      | some mac =>
        cases hpi : p.ip with
        | none =>
          rw [add_missing_field st p (Or.inr (Or.inr hpi))]
          exact hs
        | some ip =>
          cases hfind : findAgent st._agents mac with
          | none =>
            obtain ⟨a, _, _, _, _, hsorted, _, _⟩ :=
              add_fresh_props hs hpn hpm hpi hfind
            exact hsorted
          | some b =>
            rw [add_existing_eq hs hpn hpm hpi hfind]
            refine updateAt_macSorted hs ?_
            rw [addResult_mac]
            exact (findAgent_some hfind).2

theorem refresh_preserves_macSorted (st : AgentCollection) (input : Option Payload)
    (hs : MacSorted st._agents) : MacSorted ((refresh st input).2)._agents := by
  cases input with
  | none => exact hs
  | some p =>
    cases hpm : p.mac with
    | none =>
      rw [refresh_missing_mac st p hpm]
      exact hs
    | some mac =>
      cases hfind : findAgent st._agents mac with
      | none =>
        rw [refresh_not_found st p mac hpm hfind]
        exact hs
      | some b =>
        rw [refresh_found_eq hpm hfind]
        exact updateAt_macSorted hs (findAgent_some hfind).2

theorem renameLoop_mono (agents : List Agent) (mac base : String) :
    ∀ (fuel1 fuel2 : Nat) (d : Int) (prev nn : String), fuel1 ≤ fuel2 →
      renameLoop agents mac base fuel1 d prev = some nn →
      renameLoop agents mac base fuel2 d prev = some nn := by
  intro fuel1
  induction fuel1 with
  | zero =>
    intro fuel2 d prev nn _ h
    exact Option.noConfusion h
  | succ fuel1 ih =>
    intro fuel2 d prev nn hle h
    cases fuel2 with
    | zero => omega
    | succ fuel2 =>
      rw [renameLoop] at h ⊢
      by_cases hlen : prev.length < NAME_MAX_LENGTH
      · rw [if_pos hlen] at h ⊢
        by_cases hc : nameAlreadyExists agents (candidateName base (d + 1)) mac = true
        · rw [if_pos hc] at h ⊢
          exact ih fuel2 (d + 1) (candidateName base (d + 1)) nn (by omega) h
        · rw [if_neg hc] at h ⊢
          exact h
      · rw [if_neg hlen] at h
        exact Option.noConfusion h

theorem string_data_inj {s1 s2 : String} (h : s1.data = s2.data) : s1 = s2 := by
  cases s1
  cases s2
  exact congrArg String.mk h

theorem toDigitsCore_eq_digits :
    ∀ (fuel n : Nat) (acc : List Char), 0 < n → n < fuel →
      Nat.toDigitsCore 10 fuel n acc
        = ((Nat.digits 10 n).map Nat.digitChar).reverse ++ acc := by
  intro fuel
  induction fuel with
  | zero =>
    intro n acc h1 h2
    omega
  | succ fuel ih =>
    intro n acc hpos hlt
    simp only [Nat.toDigitsCore]
    by_cases hdiv : n / 10 = 0
    · rw [if_pos hdiv, Nat.digits_def' (by norm_num : (1:Nat) < 10) hpos, hdiv,
        Nat.digits_zero]
      simp
    · have hdivlt : n / 10 < fuel := by
        have := Nat.div_lt_self hpos (by norm_num : 1 < 10)
        omega
      rw [if_neg hdiv, ih (n / 10) _ (Nat.pos_of_ne_zero hdiv) hdivlt,
        Nat.digits_def' (by norm_num : (1:Nat) < 10) hpos]
      simp

theorem toDigits_eq_digits (n : Nat) (hpos : 0 < n) :
    Nat.toDigits 10 n = ((Nat.digits 10 n).map Nat.digitChar).reverse := by
  have h := toDigitsCore_eq_digits (n + 1) n [] hpos (by omega)
  rw [List.append_nil] at h
  exact h

theorem digitChar_inj {d1 d2 : Nat} (h1 : d1 < 10) (h2 : d2 < 10)
    (h : Nat.digitChar d1 = Nat.digitChar d2) : d1 = d2 := by
  interval_cases d1 <;> interval_cases d2 <;> first | rfl | exact absurd h (by decide)

theorem map_digitChar_inj :
    ∀ (l1 l2 : List Nat), (∀ x ∈ l1, x < 10) → (∀ x ∈ l2, x < 10) →
      l1.map Nat.digitChar = l2.map Nat.digitChar → l1 = l2
  | [], [], _, _, _ => rfl
  | [], _ :: _, _, _, h => by simp at h
  | _ :: _, [], _, _, h => by simp at h
  | x :: l1, y :: l2, hb1, hb2, h => by
    simp only [List.map_cons, List.cons.injEq] at h
    have hx := digitChar_inj (hb1 x (List.mem_cons_self x l1))
      (hb2 y (List.mem_cons_self y l2)) h.1
    rw [hx, map_digitChar_inj l1 l2 (fun z hz => hb1 z (List.mem_cons_of_mem x hz))
      (fun z hz => hb2 z (List.mem_cons_of_mem y hz)) h.2]

theorem toDigits_ne_dash (k : Nat) : ∀ c ∈ Nat.toDigits 10 k, c ≠ '-' := by
  by_cases hk : k = 0
  · subst hk
    intro c hc
    have h0 : Nat.toDigits 10 0 = ['0'] := rfl
    rw [h0] at hc
    have hc0 : c = '0' := by simpa using hc
    rw [hc0]
    decide
  · intro c hc
    rw [toDigits_eq_digits k (Nat.pos_of_ne_zero hk), List.mem_reverse] at hc
    obtain ⟨d, hd, rfl⟩ := List.mem_map.mp hc
    have hdlt : d < 10 := Nat.digits_lt_base (by norm_num) hd
    interval_cases d <;> decide

theorem natRepr_inj {n m : Nat} (h : Nat.repr n = Nat.repr m) : n = m := by
  have hl : Nat.toDigits 10 n = Nat.toDigits 10 m := by
    have hd := congrArg String.data h
    simpa [Nat.repr, List.asString] using hd
  have hzero : ∀ k : Nat, k ≠ 0 → Nat.toDigits 10 k = ['0'] → False := by
    intro k hk hdig
    rw [toDigits_eq_digits k (Nat.pos_of_ne_zero hk)] at hdig
    have hmap : (Nat.digits 10 k).map Nat.digitChar = ['0'] := by
      have hr := congrArg List.reverse hdig
      simpa using hr
    have hdigs : Nat.digits 10 k = [0] :=
      map_digitChar_inj _ [0] (fun x hx => Nat.digits_lt_base (by norm_num) hx)
        (by
          intro x hx
          simp at hx
          omega)
        (by
          rw [hmap]
          rfl)
    have hofd := congrArg (Nat.ofDigits 10) hdigs
    rw [Nat.ofDigits_digits] at hofd
    simp [Nat.ofDigits] at hofd
    exact hk hofd
  by_cases hn : n = 0
  · by_cases hm : m = 0
    · rw [hn, hm]
    · exfalso
      rw [hn] at hl
      exact hzero m hm hl.symm
  · by_cases hm : m = 0
    · exfalso
      rw [hm] at hl
      exact hzero n hn hl
    · rw [toDigits_eq_digits n (Nat.pos_of_ne_zero hn),
        toDigits_eq_digits m (Nat.pos_of_ne_zero hm)] at hl
      have hmap : (Nat.digits 10 n).map Nat.digitChar
          = (Nat.digits 10 m).map Nat.digitChar := by
        have hr := congrArg List.reverse hl
        simpa using hr
      have hdigs := map_digitChar_inj _ _
        (fun x hx => Nat.digits_lt_base (by norm_num) hx)
        (fun x hx => Nat.digits_lt_base (by norm_num) hx) hmap
      have hofd := congrArg (Nat.ofDigits 10) hdigs
      rwa [Nat.ofDigits_digits, Nat.ofDigits_digits] at hofd

theorem natRepr_ne_dash_append (k j : Nat) : Nat.repr k ≠ "-" ++ Nat.repr j := by
  intro h
  have hd := congrArg String.data h
  rw [String.data_append] at hd
  have hmem : '-' ∈ Nat.toDigits 10 k := by
    have hdata : (Nat.repr k).data = Nat.toDigits 10 k := rfl
    rw [hdata] at hd
    rw [hd]
    exact List.mem_append.mpr (Or.inl (by decide))
  exact toDigits_ne_dash k '-' hmem rfl

theorem intToString_inj {i j : Int} (h : toString i = toString j) : i = j := by
  cases i with
  | ofNat m =>
    cases j with
    | ofNat n =>
      have h' : Nat.repr m = Nat.repr n := h
      rw [natRepr_inj h']
    | negSucc n =>
      have h' : Nat.repr m = "-" ++ Nat.repr (n + 1) := h
      exact absurd h' (natRepr_ne_dash_append m (n + 1))
  | negSucc m =>
    cases j with
    | ofNat n =>
      have h' : Nat.repr n = "-" ++ Nat.repr (m + 1) := h.symm
      exact absurd h' (natRepr_ne_dash_append n (m + 1))
    | negSucc n =>
      have h' : "-" ++ Nat.repr (m + 1) = "-" ++ Nat.repr (n + 1) := h
      have hd := congrArg String.data h'
      rw [String.data_append, String.data_append] at hd
      have hr : Nat.repr (m + 1) = Nat.repr (n + 1) :=
        string_data_inj (List.append_cancel_left hd)
      have hmn : m + 1 = n + 1 := natRepr_inj hr
      have : m = n := by omega
      rw [this]

theorem candidateName_inj {base : String} {k1 k2 : Int}
    (h : candidateName base k1 = candidateName base k2) : k1 = k2 := by
  unfold candidateName at h
  have hd := congrArg String.data h
  rw [String.data_append, String.data_append, String.data_append] at hd
  exact intToString_inj (string_data_inj (List.append_cancel_left hd))

theorem renameLoop_stable_aux (agents : List Agent) (mac base : String) :
    ∀ (fuel : Nat) (d : Int) (prev : String) (matched : List Agent),
      matched.Nodup →
      (∀ a ∈ matched, a ∈ agents) →
      (∀ a ∈ matched, ∃ j : Int, j ≤ d ∧ a.name = candidateName base j) →
      agents.length + 1 ≤ fuel + matched.length →
      renameLoop agents mac base fuel d prev
        = renameLoop agents mac base (fuel + 1) d prev := by
  intro fuel
  induction fuel with
  | zero =>
    intro d prev matched hnd hsub hj hlen
    exfalso
    have hle : matched.length ≤ agents.length :=
      (List.subperm_of_subset hnd hsub).length_le
    omega
  | succ fuel ih =>
    intro d prev matched hnd hsub hj hlen
    rw [renameLoop, renameLoop]
    by_cases hlenp : prev.length < NAME_MAX_LENGTH
    · rw [if_pos hlenp, if_pos hlenp]
      by_cases hc : nameAlreadyExists agents (candidateName base (d + 1)) mac = true
      · rw [if_pos hc, if_pos hc]
        obtain ⟨a0, ha0mem, ha0name, _⟩ := (nameAlreadyExists_iff _ _ _).mp hc
        refine ih (d + 1) (candidateName base (d + 1)) (a0 :: matched) ?_ ?_ ?_ ?_
        · refine List.nodup_cons.mpr ⟨?_, hnd⟩
          intro hmem
          obtain ⟨j, hjle, hjname⟩ := hj a0 hmem
          rw [ha0name] at hjname
          have hjd : j = d + 1 := candidateName_inj hjname.symm
          omega
        · intro a ha
          rcases List.mem_cons.mp ha with rfl | ha
          · exact ha0mem
          · exact hsub a ha
        · intro a ha
          rcases List.mem_cons.mp ha with rfl | ha
          · exact ⟨d + 1, le_refl _, ha0name⟩
          · obtain ⟨j, hjle, hjname⟩ := hj a ha
            exact ⟨j, by omega, hjname⟩
        · simp only [List.length_cons]
          omega
      · rw [if_neg hc, if_neg hc]
    · rw [if_neg hlenp, if_neg hlenp]

theorem renameLoop_fuel_irrelevant (agents : List Agent) (mac base : String)
    (d : Int) (prev : String) :
    ∀ fuel1 fuel2 : Nat, agents.length + 1 ≤ fuel1 → agents.length + 1 ≤ fuel2 →
      renameLoop agents mac base fuel1 d prev
        = renameLoop agents mac base fuel2 d prev := by
  have hstep : ∀ (k fuel : Nat), agents.length + 1 ≤ fuel →
      renameLoop agents mac base fuel d prev
        = renameLoop agents mac base (fuel + k) d prev := by
    intro k
    induction k with
    | zero =>
      intro fuel _
      rfl
    | succ k ih =>
      intro fuel hfuel
      rw [ih fuel hfuel]
      have := renameLoop_stable_aux agents mac base (fuel + k) d prev []
        List.nodup_nil (by simp) (by simp) (by simp; omega)
      rw [this]
      rfl
  intro fuel1 fuel2 h1 h2
  rcases Nat.le_total fuel1 fuel2 with hle | hle
  · have := hstep (fuel2 - fuel1) fuel1 h1
    rwa [Nat.add_sub_cancel' hle] at this
  · have := hstep (fuel1 - fuel2) fuel2 h2
    rw [Nat.add_sub_cancel' hle] at this
    exact this.symm

/-- The fuel renameOne passes to the loop (getCount + 2) lies beyond the
stability bound: any larger fuel produces the same result, so the fuel-based
loop embedding computes exactly the limit semantics of the C while loop. -/
theorem renameOne_fuel_faithful (st : AgentCollection) (a : Agent)
    (fuel : Nat) (h : st._agents.length + 1 ≤ fuel) :
    renameLoop st._agents a.mac (strtokBase a.name) fuel (strtokDigit a.name) ""
      = renameLoop st._agents a.mac (strtokBase a.name) (getCount st + 2)
          (strtokDigit a.name) "" :=
  renameLoop_fuel_irrelevant st._agents a.mac (strtokBase a.name)
    (strtokDigit a.name) "" fuel (getCount st + 2) h (by
      show st._agents.length + 1 ≤ st._agents.length + 2
      omega)

theorem renameLoop_none_cases (agents : List Agent) (mac base : String) :
    ∀ (fuel : Nat) (d : Int) (prev : String),
      renameLoop agents mac base fuel d prev = none →
      (¬ prev.length < NAME_MAX_LENGTH) ∨
      (∃ k : Int, d < k ∧
        (∀ j : Int, d < j → j ≤ k →
          nameAlreadyExists agents (candidateName base j) mac = true) ∧
        ¬ (candidateName base k).length < NAME_MAX_LENGTH) ∨
      (∀ j : Int, d < j → j ≤ d + (fuel : Int) →
        nameAlreadyExists agents (candidateName base j) mac = true) := by
  intro fuel
  induction fuel with
  | zero =>
    intro d prev _
    refine Or.inr (Or.inr ?_)
    intro j hj1 hj2
    omega
  | succ fuel ih =>
    intro d prev h
    rw [renameLoop] at h
    by_cases hlenp : prev.length < NAME_MAX_LENGTH
    · rw [if_pos hlenp] at h
      by_cases hc : nameAlreadyExists agents (candidateName base (d + 1)) mac = true
      · rw [if_pos hc] at h
        rcases ih (d + 1) (candidateName base (d + 1)) h with h1 | h2 | h3
        · refine Or.inr (Or.inl ⟨d + 1, by omega, ?_, h1⟩)
          intro j hj1 hj2
          have hj : j = d + 1 := by omega
          rw [hj]
          exact hc
        · obtain ⟨k, hk1, hk2, hk3⟩ := h2
          refine Or.inr (Or.inl ⟨k, by omega, ?_, hk3⟩)
          intro j hj1 hj2
          by_cases hj : j = d + 1
          · rw [hj]
            exact hc
          · exact hk2 j (by omega) hj2
        · refine Or.inr (Or.inr ?_)
          intro j hj1 hj2
          by_cases hj : j = d + 1
          · rw [hj]
            exact hc
          · refine h3 j (by omega) ?_
            omega
      · rw [if_neg hc] at h
        exact Option.noConfusion h
    · rw [if_neg hlenp] at h
      exact Or.inl hlenp

theorem conflict_run_bounded (agents : List Agent) (mac base : String) :
    ∀ (m : Nat) (d : Int),
      (∀ j : Int, d < j → j ≤ d + (m : Int) →
        nameAlreadyExists agents (candidateName base j) mac = true) →
      ∃ ws : List Agent, ws.Nodup ∧ ws.length = m ∧ (∀ a ∈ ws, a ∈ agents) ∧
        (∀ a ∈ ws, ∃ j : Int, d < j ∧ j ≤ d + (m : Int) ∧
          a.name = candidateName base j) := by
  intro m
  induction m with
  | zero =>
    intro d _
    exact ⟨[], List.nodup_nil, rfl, by simp, by simp⟩
  | succ m ih =>
    intro d hconf
    have hc1 : nameAlreadyExists agents (candidateName base (d + 1)) mac = true := by
      refine hconf (d + 1) (by omega) ?_
      push_cast
      omega
    obtain ⟨a0, ha0mem, ha0name, _⟩ := (nameAlreadyExists_iff _ _ _).mp hc1
    obtain ⟨ws, hnd, hlen, hsub, hjs⟩ := ih (d + 1) (by
      intro j hj1 hj2
      refine hconf j (by omega) ?_
      push_cast
      omega)
    refine ⟨a0 :: ws, ?_, ?_, ?_, ?_⟩
    · refine List.nodup_cons.mpr ⟨?_, hnd⟩
      intro hmem
      obtain ⟨j, hj1, _, hjname⟩ := hjs a0 hmem
      rw [ha0name] at hjname
      have : d + 1 = j := candidateName_inj hjname
      omega
    · simp [hlen]
    · intro a ha
      rcases List.mem_cons.mp ha with rfl | ha
      · exact ha0mem
      · exact hsub a ha
    · intro a ha
      rcases List.mem_cons.mp ha with rfl | ha
      · refine ⟨d + 1, by omega, ?_, ha0name⟩
        push_cast
        omega
      · obtain ⟨j, hj1, hj2, hjname⟩ := hjs a ha
        refine ⟨j, by omega, ?_, hjname⟩
        push_cast
        omega

/-- With the fuel renameOne passes, a none result of the candidate search means
the loop genuinely stopped at the length bound: either the first length test
already failed, or some run of candidates starting right after the parsed
suffix all conflicted and the last tried one reached NAME_MAX_LENGTH. A
fuel-exhaustion exit is impossible: a run of getCount + 2 conflicting
candidates would name that many pairwise distinct agents. -/
theorem renameLoop_none_length_exit (agents : List Agent) (mac base : String)
    (d : Int) (prev : String)
    (h : renameLoop agents mac base (agents.length + 2) d prev = none) :
    ¬ prev.length < NAME_MAX_LENGTH ∨
    ∃ k : Int, d < k ∧
      (∀ j : Int, d < j → j ≤ k →
        nameAlreadyExists agents (candidateName base j) mac = true) ∧
      ¬ (candidateName base k).length < NAME_MAX_LENGTH := by
  rcases renameLoop_none_cases agents mac base (agents.length + 2) d prev h with
    h1 | h2 | h3
  · exact Or.inl h1
  · exact Or.inr h2
  · exfalso
    obtain ⟨ws, hnd, hlen, hsub, _⟩ :=
      conflict_run_bounded agents mac base (agents.length + 2) d h3
    have := (List.subperm_of_subset hnd hsub).length_le
    omega

/-- C1: for every valid registration payload (name, mac, ip all present), on a
well-formed registry: if no agent with that mac is registered, add creates
exactly one new Agent keyed by that mac (every other mac resolves as before) and
the count increases by exactly 1; if an agent with that mac is already
registered, add returns that same existing agent (its non-payload state, e.g.
pong, is carried over — the freshly allocated instance is discarded), the key
set is unchanged (no duplicate entry) and the count is unchanged. -/
theorem C1_add_registration (st : AgentCollection) (p : Payload)
    (name mac ip : String) (hs : MacSorted st._agents) (hn : p.name = some name)
    (hm : p.mac = some mac) (hi : p.ip = some ip) :
    (findAgent st._agents mac = none →
      ∃ a : Agent, (add st (some p)).1 = some a ∧ a.mac = mac ∧
        findAgent ((add st (some p)).2)._agents mac = some a ∧
        (∀ m, m ≠ mac →
          findAgent ((add st (some p)).2)._agents m = findAgent st._agents m) ∧
        getCount ((add st (some p)).2) = getCount st + 1) ∧
    (∀ b : Agent, findAgent st._agents mac = some b →
      ∃ a : Agent, (add st (some p)).1 = some a ∧ a.mac = mac ∧ a.pong = b.pong ∧
        findAgent ((add st (some p)).2)._agents mac = some a ∧
        ((add st (some p)).2)._agents.map Agent.mac = st._agents.map Agent.mac ∧
        getCount ((add st (some p)).2) = getCount st) := by
  constructor
  · intro hnone
    obtain ⟨a, h1, h2, h3, h4, _, h6, _⟩ := add_fresh_props hs hn hm hi hnone
    exact ⟨a, h1, h2, h3, h6, h4⟩
  · intro b hb
    have heq := add_existing_eq hs hn hm hi hb
    have hbm : b.mac = mac := (findAgent_some hb).2
    have hrm : (addResult st._agents b p name mac ip).mac = mac := by
      rw [addResult_mac]
      exact hbm
    refine ⟨addResult st._agents b p name mac ip, ?_, hrm, addResult_pong _ _ _ _ _ _, ?_, ?_, ?_⟩
    · rw [heq]
    · rw [heq]
      exact findAgent_updateAt_self _ hb hrm
    · rw [heq]
      exact updateAt_map_mac _ _ _ hrm
    · rw [heq]
      show (updateAt st._agents mac _).length = st._agents.length
      exact updateAt_length _ _ _

/-- Witness for C1 at a concrete input: registering Lamp on the empty registry
adds exactly one agent. -/
theorem C1_witness :
    getCount ((add emptyCollection (some (mkPayload "Lamp" "AA:AA" "10.0.0.1"))).2)
      = getCount emptyCollection + 1 := by
  obtain ⟨a, h1, h2, h3, h4, h5⟩ :=
    (C1_add_registration emptyCollection (mkPayload "Lamp" "AA:AA" "10.0.0.1")
      "Lamp" "AA:AA" "10.0.0.1" (by decide) rfl rfl rfl).1 rfl
  exact h5

/-- C2: every failing add or refresh call — unparseable payload, a required
field (name, mac, ip) absent for add, mac absent for refresh, or refresh on an
unregistered mac — returns the error result (NULL) and leaves the whole registry
state unchanged. -/
theorem C2_error_paths (st : AgentCollection) (p : Payload) (mac : String) :
    add st none = (none, st) ∧
    refresh st none = (none, st) ∧
    (p.name = none ∨ p.mac = none ∨ p.ip = none → add st (some p) = (none, st)) ∧
    (p.mac = none → refresh st (some p) = (none, st)) ∧
    (p.mac = some mac → findAgent st._agents mac = none →
      refresh st (some p) = (none, st)) :=
  ⟨add_parse_fail st, refresh_parse_fail st, add_missing_field st p,
   refresh_missing_mac st p,
   fun hm h => refresh_not_found st p mac hm h⟩

/-- Witness for C2 at concrete inputs: a parse failure and a refresh of an
unregistered mac both leave stAB untouched. -/
theorem C2_witness :
    add stAB none = (none, stAB) ∧
    refresh stAB (some (mkPayload "X" "ZZ:ZZ" "10.0.0.7")) = (none, stAB) :=
  ⟨(C2_error_paths stAB payNoMac "ZZ:ZZ").1,
   (C2_error_paths stAB (mkPayload "X" "ZZ:ZZ" "10.0.0.7") "ZZ:ZZ").2.2.2.2 rfl (by decide)⟩

/-- C3: nameAlreadyExists(candidateName, excludingMac) is true exactly when some
registered agent carries that name on a mac different from the excluded one; in
particular it is false when every agent bearing the name is the excluded one
itself. -/
theorem C3_nameExists (agents : List Agent) (n m : String) :
    (nameAlreadyExists agents n m = true ↔ ∃ a ∈ agents, a.name = n ∧ a.mac ≠ m) ∧
    ((∀ a ∈ agents, a.name = n → a.mac = m) → nameAlreadyExists agents n m = false) := by
  refine ⟨nameAlreadyExists_iff agents n m, ?_⟩
  intro h
  cases hval : nameAlreadyExists agents n m with
  | false => rfl
  | true =>
    obtain ⟨a, ha, hname, hmac⟩ := (nameAlreadyExists_iff agents n m).mp hval
    exact absurd (h a ha hname) hmac

/-- Witness for C3 at a concrete input: Lamp owned only by AA:AA does not count
as a conflict when AA:AA itself is excluded. -/
theorem C3_witness : nameAlreadyExists stA._agents "Lamp" "AA:AA" = false :=
  (C3_nameExists stA._agents "Lamp" "AA:AA").2 (by decide)

/-- C4, counterexample to the claim as stated: the code splits the name at its
FIRST underscore (strtok), not at its last numeric suffix. On the name My_Lamp
the spec-described split (no numeric suffix, base My_Lamp, suffix 0) would
resolve the conflict to My_Lamp_1, but renameOne renames the agent to My_1. -/
theorem C4_counterexample :
    findAgent stMy._agents "BB:BB" = some agentMyBB ∧ agentMyBB.toRename = true ∧
    (renameOne stMy agentMyBB).name = "My_1" ∧
    (renameOneSpec stMy agentMyBB).name = "My_Lamp_1" ∧
    (renameOne stMy agentMyBB).name ≠ (renameOneSpec stMy agentMyBB).name := by
  decide

/-- C4 as amended: the conflict-resolution operation seeds its search with the
strtok split of the current name — base is the name up to the end of its first
run of non-underscore characters, the suffix is atoi of the second such run
(0 when absent or non-numeric) — and then deterministically tries
base_n for increasing n starting at suffix+1, stopping at the first candidate
for which nameExists is false (the search aborts when the previously tried
candidate has reached the maximum name length): whenever it succeeds, the new
name is the candidate of least such index. With Lamp registered on AA:AA, a
conflicting agent on BB:BB resolves to Lamp_1 and a further conflicting agent on
CC:CC resolves to Lamp_2. -/
theorem C4_rename_algorithm :
    (∀ (st : AgentCollection) (a : Agent) (nn : String),
      renameLoop st._agents a.mac (strtokBase a.name) (getCount st + 2)
        (strtokDigit a.name) "" = some nn →
      (renameOne st a).name = nn ∧
      ∃ k : Int, strtokDigit a.name < k ∧ nn = candidateName (strtokBase a.name) k ∧
        nameAlreadyExists st._agents (candidateName (strtokBase a.name) k) a.mac = false ∧
        ∀ j : Int, strtokDigit a.name < j → j < k →
          nameAlreadyExists st._agents (candidateName (strtokBase a.name) j) a.mac = true) ∧
    (strtokBase "Lamp_3" = "Lamp" ∧ strtokDigit "Lamp_3" = 3 ∧
     strtokBase "Lamp" = "Lamp" ∧ strtokDigit "Lamp" = 0 ∧
     strtokBase "My_Lamp_7" = "My" ∧ strtokDigit "My_Lamp_7" = 0) ∧
    (findAgent stAB._agents "BB:BB" = some agentBB ∧ agentBB.toRename = true ∧
     (renameOne stAB agentBB).name = "Lamp_1" ∧
     findAgent stABC._agents "CC:CC" = some agentCC ∧ agentCC.toRename = true ∧
     (renameOne stABC agentCC).name = "Lamp_2") := by
  refine ⟨?_, by decide, by decide⟩
  intro st a nn h
  constructor
  · simp only [renameOne, h, renameTo]
  · exact renameLoop_least st._agents a.mac (strtokBase a.name)
      (getCount st + 2) (strtokDigit a.name) "" nn h

/-- Witness for C4 at a concrete input: the BB:BB conflict resolves to Lamp_1,
the least free candidate above the parsed suffix. -/
theorem C4_witness :
    (renameOne stAB agentBB).name = "Lamp_1" ∧
    ∃ k : Int, strtokDigit agentBB.name < k ∧
      "Lamp_1" = candidateName (strtokBase agentBB.name) k ∧
      nameAlreadyExists stAB._agents (candidateName (strtokBase agentBB.name) k)
        agentBB.mac = false ∧
      ∀ j : Int, strtokDigit agentBB.name < j → j < k →
        nameAlreadyExists stAB._agents (candidateName (strtokBase agentBB.name) j)
          agentBB.mac = true :=
  C4_rename_algorithm.1 stAB agentBB "Lamp_1" (by decide)

/-- C5: when the candidate search succeeds the agent gets the found name and its
pending-rename flag is cleared; when the search is exhausted the agent is left
completely unchanged — it keeps its duplicate name and its flag stays set for a
future pass. -/
theorem C5_resolution_outcome (st : AgentCollection) (a : Agent) :
    (∀ nn : String,
      renameLoop st._agents a.mac (strtokBase a.name) (getCount st + 2)
        (strtokDigit a.name) "" = some nn →
      (renameOne st a).name = nn ∧ (renameOne st a).toRename = false) ∧
    (renameLoop st._agents a.mac (strtokBase a.name) (getCount st + 2)
        (strtokDigit a.name) "" = none →
      renameOne st a = a) := by
  constructor
  · intro nn h
    constructor <;> simp only [renameOne, h, renameTo]
  · intro h
    simp only [renameOne, h]

/-- Witness for C5 at concrete inputs: the stAB conflict resolves (flag
cleared); the length-bound-exhausted agent of stLong is untouched (flag still
set since it was set). -/
theorem C5_witness :
    ((renameOne stAB agentBB).name = "Lamp_1" ∧
     (renameOne stAB agentBB).toRename = false) ∧
    renameOne stLong agentLongDup = agentLongDup :=
  ⟨(C5_resolution_outcome stAB agentBB).1 "Lamp_1" (by decide),
   (C5_resolution_outcome stLong agentLongDup).2 (by decide)⟩

/-- C6, evaluation at the failing input: an awake agent with pingPeriod = -1 IS
pinged by the registry sweep, because line 186 casts getPingPeriod() to bool
(nonzero becomes 1) before the pingPeriod > 0 test of line 187; the claim (and
the spec) say every agent with pingPeriod <= 0 is skipped unconditionally. -/
theorem C6_negative_pingPeriod_pinged :
    agentNegPing.canSleep = false ∧ agentNegPing.pingPeriod < 0 ∧
    pingInvoked stNegPing = [agentNegPing] := by
  decide

/-- C7: a successful refresh overwrites only the custom field of the found agent
— every other field of that agent, every other agent, the count and the cached
buffer size are unchanged — and returns that agent. -/
theorem C7_refresh_frame (st : AgentCollection) (p : Payload) (mac : String)
    (b : Agent) (hm : p.mac = some mac) (hb : findAgent st._agents mac = some b) :
    ∃ a : Agent, (refresh st (some p)).1 = some a ∧
      a.custom = p.custom ∧ a.name = b.name ∧ a.mac = b.mac ∧ a.ip = b.ip ∧
      a.canSleep = b.canSleep ∧ a.pingPeriod = b.pingPeriod ∧
      a.uiClassName = b.uiClassName ∧ a.heap = b.heap ∧ a.pong = b.pong ∧
      a.toRename = b.toRename ∧
      findAgent ((refresh st (some p)).2)._agents mac = some a ∧
      (∀ m, m ≠ mac →
        findAgent ((refresh st (some p)).2)._agents m = findAgent st._agents m) ∧
      getCount ((refresh st (some p)).2) = getCount st ∧
      ((refresh st (some p)).2)._listBufferSize = st._listBufferSize := by
  have heq := refresh_found_eq hm hb
  have hbm : b.mac = mac := (findAgent_some hb).2
  refine ⟨{ b with custom := p.custom }, ?_, rfl, rfl, rfl, rfl, rfl, rfl, rfl,
    rfl, rfl, rfl, ?_, ?_, ?_, ?_⟩
  · rw [heq]
  · rw [heq]
    exact findAgent_updateAt_self _ hb hbm
  · intro m hm'
    rw [heq]
    exact findAgent_updateAt_other { b with custom := p.custom } hbm m hm'
  · rw [heq]
    show (updateAt st._agents mac _).length = st._agents.length
    exact updateAt_length _ _ _
  · rw [heq]

/-- Witness for C7 at a concrete input: refreshing BB:BB stores the custom blob
and keeps the name. -/
theorem C7_witness :
    ∃ a : Agent, (refresh stAB (some payRefreshBB)).1 = some a ∧
      a.custom = some "hello" ∧ a.name = "Lamp" := by
  obtain ⟨a, h1, h2, h3, _⟩ :=
    C7_refresh_frame stAB payRefreshBB "BB:BB" agentBB rfl (by decide)
  exact ⟨a, h1, h2, h3⟩

/-- C8: list on the empty registry yields the empty composite, and on N agents
yields exactly N entries, keyed by the N (distinct) macs, each carrying the
agent's name, ip, canSleep, pong, uiClassName and heap, and its custom exactly
when the agent has one (the entry's custom equals the agent's optional custom). -/
theorem C8_list_snapshot (st : AgentCollection)
    (h : (st._agents.map Agent.mac).Nodup) :
    list emptyCollection = [] ∧
    (list st).length = getCount st ∧
    (list st).map Prod.fst = st._agents.map Agent.mac ∧
    ((list st).map Prod.fst).Nodup ∧
    ∀ a ∈ st._agents,
      (a.mac, { name := a.name, ip := a.ip, canSleep := a.canSleep, pong := a.pong,
                uiClassName := a.uiClassName, heap := a.heap,
                custom := a.custom : ListEntry }) ∈ list st := by
  have hlist : ∀ st' : AgentCollection,
      list st' = st'._agents.map (fun a => (a.mac, listEntryOf a)) := by
    intro st'
    unfold list
    by_cases h0 : getCount st' = 0
    · rw [if_pos h0]
      have hnil : st'._agents = [] := List.eq_nil_of_length_eq_zero h0
      rw [hnil]
      rfl
    · rw [if_neg h0]
  have hkeys : (list st).map Prod.fst = st._agents.map Agent.mac := by
    rw [hlist st, List.map_map]
    rfl
  refine ⟨rfl, ?_, hkeys, ?_, ?_⟩
  · rw [hlist st]
    exact List.length_map _ _
  · rw [hkeys]
    exact h
  · intro a ha
    rw [hlist st]
    exact List.mem_map_of_mem _ ha

/-- Witness for C8 at a concrete input: the two-agent registry stAB lists two
entries, and the empty registry lists none. -/
theorem C8_witness :
    list emptyCollection = [] ∧ (list stAB).length = getCount stAB := by
  obtain ⟨h1, h2, _⟩ := C8_list_snapshot stAB (by decide)
  exact ⟨h1, h2⟩

/-- C9, counterexample to the claim as stated: on a registry whose first agent
(in key order) has a 7-byte custom and whose last has a 1-byte custom, list
provisions the cached estimate plus 1 — the custom size of the LAST agent
iterated — not plus the size (7) of the largest custom payload. -/
theorem C9_counterexample :
    listProvisionedSize stCust
      ≠ stCust._listBufferSize + largestCustomSize stCust._agents := by
  decide

/-- C9 as amended: the provisioned capacity equals the cached per-membership
estimate plus the custom size of the last agent in iteration order having a
custom value (0 if none) — the customSize accumulator is overwritten, not
maximized — and the cached estimate is recomputed on every successful add as the
per-field sum over the current agent count. -/
theorem C9_provision_last_custom :
    (∀ agents : List Agent, listCustomSize agents = lastCustomSize agents) ∧
    (∀ st : AgentCollection,
      listProvisionedSize st = st._listBufferSize + lastCustomSize st._agents) ∧
    (∀ (st : AgentCollection) (p : Payload) (name mac ip : String),
      MacSorted st._agents → p.name = some name → p.mac = some mac →
      p.ip = some ip →
      ((add st (some p)).2)._listBufferSize
        = _refreshListBufferSize (getCount ((add st (some p)).2))) := by
  have h1 : ∀ agents : List Agent, listCustomSize agents = lastCustomSize agents := by
    intro agents
    unfold listCustomSize lastCustomSize
    exact listCustomSize_acc agents 0
  refine ⟨h1, ?_, ?_⟩
  · intro st
    unfold listProvisionedSize
    rw [h1]
  · intro st p name mac ip hs hn hm hi
    cases hfind : findAgent st._agents mac with
    | none =>
      obtain ⟨a, _, _, _, hcount, _, _, hbuf⟩ := add_fresh_props hs hn hm hi hfind
      rw [hbuf, hcount]
    | some b =>
      rw [add_existing_eq hs hn hm hi hfind]
      show _refreshListBufferSize st._agents.length
        = _refreshListBufferSize (updateAt st._agents mac _).length
      rw [updateAt_length]

/-- Witness for C9 at a concrete input: after registering Lamp on the empty
registry the cached estimate is the per-field sum for one module. -/
theorem C9_witness :
    ((add emptyCollection (some (mkPayload "Lamp" "AA:AA" "10.0.0.1"))).2)._listBufferSize
      = _refreshListBufferSize
          (getCount ((add emptyCollection (some (mkPayload "Lamp" "AA:AA" "10.0.0.1"))).2)) :=
  C9_provision_last_custom.2.2 emptyCollection (mkPayload "Lamp" "AA:AA" "10.0.0.1")
    "Lamp" "AA:AA" "10.0.0.1" (by decide) rfl rfl rfl

/-- C10: a successful re-registration whose name conflicts with no agent of a
different mac leaves the target agent's pending-rename flag at its prior value
(add never clears the flag; only the rename pass does). -/
theorem C10_add_keeps_flag (st : AgentCollection) (p : Payload)
    (name mac ip : String) (b : Agent) (hs : MacSorted st._agents)
    (hn : p.name = some name) (hm : p.mac = some mac) (hi : p.ip = some ip)
    (hb : findAgent st._agents mac = some b)
    (hno : nameAlreadyExists st._agents name mac = false) :
    ∃ a : Agent, (add st (some p)).1 = some a ∧ a.toRename = b.toRename := by
  rw [add_existing_eq hs hn hm hi hb]
  exact ⟨addResult st._agents b p name mac ip, rfl,
    addResult_toRename _ _ _ _ _ _ hno⟩

/-- Witness for C10 at a concrete input: the flagged BB:BB agent re-registers
under the non-conflicting name Other and stays flagged. -/
theorem C10_witness :
    ∃ a : Agent, (add stAB (some payOtherBB)).1 = some a ∧ a.toRename = true :=
  C10_add_keeps_flag stAB payOtherBB "Other" "BB:BB" "10.0.0.9" agentBB
    (by decide) rfl rfl rfl (by decide) (by decide)

end Iotinator
